import Mathlib

/-!
# Habit-Tracker: verification of the statistics / completion-log core

Shallow embedding of the habit-tracker's storage layer (`StorageManager`,
src/unnamed/part_000) and statistics engine (`HabitManager`, src/js/habits.js).

Modelling conventions:
* A JS calendar-date string `"YYYY-MM-DD"` is modelled as an `Int` day index.
  The JS code only ever compares such strings for equality and generates them
  by calendar-correct day arithmetic (`date.setDate(date.getDate() - i)`),
  so "the day `i` days before `today`" is faithfully `today - i`.
* The JS completions object `{habitId: [{date, timestamp}]}` is modelled as an
  association list with JS-object key semantics: key lookup finds the first
  binding, assignment replaces the binding in place, `delete` removes it.
* "Today" and "now" are explicit parameters: the JS code reads the ambient
  clock (`new Date()`); every function here takes the clock reading it uses.
* JS `Math.round` (ECMA: the closest integer, ties toward `+∞`) is exact on
  the value of its argument; it is modelled by `jsMathRound` over `ℚ`.
* The IEEE-754 binary64 arithmetic inside `calculateCompletionRate`
  (`(completedDays / days) * 100` on doubles) is modelled bit-exactly:
  `roundDouble` rounds an exact rational to the nearest binary64 value
  (round-to-nearest, ties-to-even, 53-bit significand). The magnitudes
  reached by this code are far inside the normal range of binary64, so no
  subnormal or overflow handling is needed, and integer inputs (< 2^53)
  convert to doubles exactly.
* The percentage divisions inside `getOverallStats` are modelled in exact
  rational arithmetic; the property verified about it (C9) exercises only
  its division-by-zero guard branches, where no rounding occurs.
-/

/-- JS-object key lookup: first binding for the key, if any. -/
def lookupKey {α : Type} : List (String × α) → String → Option α
  | [], _ => none
  | (k, v) :: rest, key => if k = key then some v else lookupKey rest key

/-- JS-object key assignment: replace the binding in place, or append a new one. -/
def setKey {α : Type} : List (String × α) → String → α → List (String × α)
  | [], key, v => [(key, v)]
  | (k, w) :: rest, key, v =>
      if k = key then (key, v) :: rest else (k, w) :: setKey rest key v

/-- JS `delete obj[key]`: remove the binding for the key. -/
def delKey {α : Type} (m : List (String × α)) (key : String) : List (String × α) :=
  m.filter (fun p => p.1 ≠ key)

/-- One completion record `{date, timestamp}` (part_000 line 120). The
`timestamp` is audit-only. -/
structure CompletionRecord where
  date : Int
  timestamp : Int
deriving DecidableEq, Repr

/-- The completions store: `{habitId: [CompletionRecord]}`. -/
abbrev Completions := List (String × List CompletionRecord)

/-- One element of the sequence returned by `getHabitCompletions`
(part_000 lines 151-154): `{date, completed}`. -/
structure DayCompletion where
  date : Int
  completed : Bool
deriving DecidableEq, Repr

namespace StorageManager

/-- `StorageManager.markHabitComplete` (part_000 lines 111-124): ensure the
habit's list exists, push a `{date, timestamp}` record only when no record
with this date is present, and save. -/
def markHabitComplete (completions : Completions) (habitId : String)
    (date : Int) (ts : Int) : Completions :=
  let list := (lookupKey completions habitId).getD []
  let list2 :=
    if list.any (fun c => c.date = date) then list
    else list ++ [{ date := date, timestamp := ts }]
  setKey completions habitId list2

/-- `StorageManager.markHabitIncomplete` (part_000 lines 126-132): if the
habit has a completions list, filter out records with this date and save;
otherwise do nothing. -/
def markHabitIncomplete (completions : Completions) (habitId : String)
    (date : Int) : Completions :=
  match lookupKey completions habitId with
  | some l => setKey completions habitId (l.filter (fun c => c.date ≠ date))
  | none => completions

/-- `StorageManager.isHabitCompleted` (part_000 lines 134-137). -/
def isHabitCompleted (completions : Completions) (habitId : String)
    (date : Int) : Bool :=
  match lookupKey completions habitId with
  | some l => l.any (fun c => c.date = date)
  | none => false

/-- `StorageManager.getHabitCompletions` (part_000 lines 139-155): the dates
of the last `days` calendar days ending `today`, oldest first, each paired
with whether a record for it exists. -/
def getHabitCompletions (completions : Completions) (habitId : String)
    (days : Nat) (today : Int) : List DayCompletion :=
  let habitCompletions := (lookupKey completions habitId).getD []
  let dates := (List.range days).map (fun j => today - ((days - 1 - j : Nat) : Int))
  dates.map (fun d => { date := d, completed := habitCompletions.any (fun c => c.date = d) })

end StorageManager

/-- A habit record. Only the fields the verified operations read are kept:
`id` (opaque identifier), `name`, `createdAt` / `updatedAt` (millisecond
timestamps, as used by `getOverallStats`). -/
structure Habit where
  id : String
  name : String
  createdAt : Int
  updatedAt : Int
deriving DecidableEq, Repr

/-- Settings payload `{notificationsEnabled, reminderTimes}` (part_000
lines 25-28); opaque to every claim, carried through import/export. -/
structure Settings where
  notifsEnabled : Bool
  reminderTimes : List (String × String)
deriving DecidableEq, Repr

namespace StorageManager

/-- `StorageManager.updateHabit` (part_000 lines 63-72): find the habit by
id; if found, merge the updates (modelled as the function `upd`, the JS
spread `{...habits[index], ...updates}`), stamp `updatedAt`, save, and
return the updated habit; otherwise return `null` and save nothing.
Returns the result together with the (possibly unchanged) stored list. -/
def updateHabit : List Habit → String → (Habit → Habit) → Int →
    Option Habit × List Habit
  | [], _, _, _ => (none, [])
  | h :: rest, habitId, upd, now =>
      if h.id = habitId then
        let h2 := { upd h with updatedAt := now }
        (some h2, h2 :: rest)
      else
        let r := updateHabit rest habitId upd now
        (r.1, h :: r.2)

/-- `StorageManager.deleteHabit` (part_000 lines 74-83): filter the habit
out of the stored list and delete its completions key. -/
def deleteHabit (habits : List Habit) (completions : Completions)
    (habitId : String) : List Habit × Completions :=
  (habits.filter (fun h => h.id ≠ habitId), delKey completions habitId)

/-- The full persisted store: habits, completions, settings. -/
structure StorageState where
  habits : List Habit
  completions : Completions
  settings : Settings
deriving DecidableEq, Repr

/-- An import document. A missing top-level key (JS `undefined`, falsy) is
`none`; a present one is `some`. -/
structure ImportDoc where
  habits : Option (List Habit)
  completions : Option Completions
  settings : Option Settings
deriving DecidableEq, Repr

/-- `StorageManager.importData` (part_000 lines 210-220): each of the three
sections is saved independently when its key is present (`if (data.habits)
this.saveHabits(data.habits)` and likewise for the other two); the function
then returns `true`. (The `catch` branch is unreachable here: `saveHabits`
etc. catch their own storage errors internally, part_000 lines 45-51.) -/
def importData (s : StorageState) (d : ImportDoc) : StorageState × Bool :=
  let s1 := match d.habits with
    | some hs => { s with habits := hs }
    | none => s
  let s2 := match d.completions with
    | some cs => { s1 with completions := cs }
    | none => s1
  let s3 := match d.settings with
    | some st => { s2 with settings := st }
    | none => s2
  (s3, true)

end StorageManager

/-- JS `Math.round` on the (finite, non-negative) values arising in this
code: round half up, `⌊q + 1/2⌋`. -/
def jsMathRound (q : ℚ) : ℤ := ⌊q + 1 / 2⌋

/-- JS `Math.ceil((now - createdAt) / (1000*60*60*24))`
(habits.js line 183). -/
def daysSinceCreation (nowMs createdAt : Int) : Int :=
  ⌈((nowMs - createdAt : Int) : ℚ) / 86400000⌉

/-- `⌊log2 n⌋` by repeated halving, with explicit fuel (`fuel = n` suffices:
the recursion halves `n` each step). Written with structural fuel so that
the kernel can evaluate it on literals. -/
def log2Aux : Nat → Nat → Nat
  | 0, _ => 0
  | fuel + 1, n => if 2 ≤ n then log2Aux fuel (n / 2) + 1 else 0

/-- `⌊log2 n⌋` for `n ≥ 1` (and `0` for `n = 0`). -/
def log2Nat (n : Nat) : Nat := log2Aux n n

/-- `2 ^ s` as a rational, for an integer exponent. -/
def pow2 (s : ℤ) : ℚ := (2 : ℚ) ^ s

/-- Decides `2 ^ e ≤ num / den` in integer arithmetic (`den > 0`). -/
def gePow2 (num den : ℕ) (e : ℤ) : Bool :=
  if 0 ≤ e then den * 2 ^ e.toNat ≤ num else den ≤ num * 2 ^ (-e).toNat

/-- The exponent `e` with `2 ^ e ≤ num / den < 2 ^ (e + 1)` (for positive
`num`, `den`): the estimate `log2 num - log2 den` is off by at most one,
and is corrected by one comparison. -/
def floorLog2Pos (num den : ℕ) : ℤ :=
  let e0 : ℤ := (log2Nat num : ℤ) - (log2Nat den : ℤ)
  if gePow2 num den e0 then e0 else e0 - 1

/-- Round `N / D` to the nearest natural number, ties to even (`D > 0`):
the rounding rule of IEEE-754 round-to-nearest. -/
def rneNat (N D : ℕ) : ℕ :=
  let m0 := N / D
  let r := N % D
  if 2 * r < D then m0
  else if D < 2 * r then m0 + 1
  else if m0 % 2 = 0 then m0 else m0 + 1

/-- The binary64 rounding of `num / den > 0`, as a mantissa/exponent pair
`(m, e)`: the rounded value is `m * 2 ^ (e - 52)` with
`2 ^ e ≤ num / den < 2 ^ (e + 1)`, i.e. the significand is rounded to 53
bits (round-to-nearest, ties-to-even). -/
def roundPosME (num den : ℕ) : ℕ × ℤ :=
  let e := floorLog2Pos num den
  let s := 52 - e
  if 0 ≤ s then (rneNat (num * 2 ^ s.toNat) den, e)
  else (rneNat num (den * 2 ^ (-s).toNat), e)

/-- The binary64 rounding of `num / den > 0`, as a rational. -/
def roundPos (num den : ℕ) : ℚ :=
  ((roundPosME num den).1 : ℚ) * pow2 ((roundPosME num den).2 - 52)

/-- Round an exact rational to the nearest IEEE-754 binary64 value
(round-to-nearest, ties-to-even; symmetric in sign; exact on `0`). The
values reached by this development are far inside the normal range, so
subnormals and overflow need no handling. -/
def roundDouble (q : ℚ) : ℚ :=
  if q = 0 then 0
  else if 0 < q then roundPos q.num.toNat q.den
  else -roundPos (-q).num.toNat (-q).den

/-- JS `/` on doubles: exact quotient, then binary64 rounding. -/
def jsDiv (a b : ℚ) : ℚ := roundDouble (a / b)

/-- JS `*` on doubles: exact product, then binary64 rounding. -/
def jsMul (a b : ℚ) : ℚ := roundDouble (a * b)

/-- Integer-only evaluation form of
`Math.round((cd / days) * 100)` in binary64 (the composition
`jsMathRound (jsMul (jsDiv cd days) 100)`), used to evaluate concrete
cases in the kernel; `jsRate_eq_rateNat` proves the two agree for every
`cd` and every `days > 0`. -/
def rateNat (cd days : ℕ) : ℤ :=
  if cd = 0 then 0
  else
    let p1 := roundPosME cd days
    let a := if 0 ≤ p1.2 - 52 then 100 * p1.1 * 2 ^ (p1.2 - 52).toNat else 100 * p1.1
    let b := if 0 ≤ p1.2 - 52 then 1 else 2 ^ (52 - p1.2).toNat
    let p2 := roundPosME a b
    if 0 ≤ p2.2 - 52 then ((p2.1 * 2 ^ (p2.2 - 52).toNat : ℕ) : ℤ)
    else ((2 * p2.1 + 2 ^ (52 - p2.2).toNat : ℕ) : ℤ) / ((2 * 2 ^ (52 - p2.2).toNat : ℕ) : ℤ)

namespace HabitManager

open StorageManager

/-- The loop body of `calculateCurrentStreak` (habits.js lines 94-101):
scan the list from its FIRST element, counting consecutive completed
entries, and stop at the first incomplete one. -/
def leadingStreak : List DayCompletion → Nat
  | [] => 0
  | d :: rest => if d.completed then leadingStreak rest + 1 else 0

/-- `HabitManager.calculateCurrentStreak` (habits.js lines 88-104): fetch
the 365-day window (oldest day first) and count the leading run of
completed entries. -/
def calculateCurrentStreak (completions : Completions) (habitId : String)
    (today : Int) : Nat :=
  leadingStreak (getHabitCompletions completions habitId 365 today)

/-- The loop of `calculateLongestStreak` (habits.js lines 113-121):
running counter `cur`, maximum seen `best`. -/
def longestRun : List DayCompletion → Nat → Nat → Nat
  | [], _, best => best
  | d :: rest, cur, best =>
      if d.completed then longestRun rest (cur + 1) (max best (cur + 1))
      else longestRun rest 0 best

/-- `HabitManager.calculateLongestStreak` (habits.js lines 109-124). -/
def calculateLongestStreak (completions : Completions) (habitId : String)
    (today : Int) : Nat :=
  longestRun (getHabitCompletions completions habitId 365 today) 0 0

/-- `HabitManager.calculateCompletionRate` (habits.js lines 129-133):
`Math.round((completedDays / days) * 100)` over the `days`-day window,
with the division and multiplication performed in binary64 (`jsDiv`,
`jsMul`) exactly as JS does, and `Math.round` applied to the resulting
double's exact value. -/
def calculateCompletionRate (completions : Completions) (habitId : String)
    (days : Nat) (today : Int) : ℤ :=
  let comps := getHabitCompletions completions habitId days today
  let completedDays := (comps.filter (fun c => c.completed)).length
  jsMathRound (jsMul (jsDiv (completedDays : ℚ) (days : ℚ)) 100)

/-- The record returned by `getHabitStats` (habits.js lines 147-154). -/
structure HabitStats where
  habit : Habit
  currentStreak : Nat
  longestStreak : Nat
  completionRate30 : ℤ
  completionRate7 : ℤ
  totalCompletions : Nat
deriving DecidableEq, Repr

/-- `HabitManager.getHabitStats` (habits.js lines 138-155): `null` when the
habit id is not in the manager's habit list, otherwise the stats record. -/
def getHabitStats (habits : List Habit) (completions : Completions)
    (habitId : String) (today : Int) : Option HabitStats :=
  match habits.find? (fun h => h.id = habitId) with
  | none => none
  | some habit => some
      { habit := habit
        currentStreak := calculateCurrentStreak completions habitId today
        longestStreak := calculateLongestStreak completions habitId today
        completionRate30 := calculateCompletionRate completions habitId 30 today
        completionRate7 := calculateCompletionRate completions habitId 7 today
        totalCompletions :=
          ((getHabitCompletions completions habitId 365 today).filter
            (fun c => c.completed)).length }

/-- `HabitManager.updateHabit` (habits.js lines 45-54): delegate to
`StorageManager.updateHabit`; when it returns a habit, patch the in-memory
list at the matching index; return the storage result. The triple is
(returned habit, in-memory list after, stored list after). -/
def updateHabit (memHabits storeHabits : List Habit) (habitId : String)
    (upd : Habit → Habit) (now : Int) :
    Option Habit × List Habit × List Habit :=
  let r := StorageManager.updateHabit storeHabits habitId upd now
  match r.1 with
  | some uh =>
      match memHabits.findIdx? (fun h => h.id = habitId) with
      | some i => (some uh, memHabits.set i uh, r.2)
      | none => (some uh, memHabits, r.2)
  | none => (none, memHabits, r.2)

/-- The record returned by `getOverallStats` (habits.js lines 190-197). -/
structure OverallStats where
  totalHabits : Nat
  todayProgress : ℤ
  bestStreak : Nat
  overallSuccess : ℤ
  completedToday : Nat
  totalCompletions : Nat
deriving DecidableEq, Repr

/-- The `totalPossibleDays` accumulator of `getOverallStats` (habits.js
lines 182-184): sum over habits of `min(daysSinceCreation, 365)`. -/
def totalPossibleDays (habits : List Habit) (nowMs : Int) : Int :=
  habits.foldl (fun t h => t + min (daysSinceCreation nowMs h.createdAt) 365) 0

/-- `HabitManager.getOverallStats` (habits.js lines 160-198). The source
accumulates four independent counters in one `forEach`; they are written
here as one fold per counter over the same habit list in the same order. -/
def getOverallStats (habits : List Habit) (completions : Completions)
    (today : Int) (nowMs : Int) : OverallStats :=
  let totalHabits := habits.length
  let completedToday :=
    (habits.filter (fun h => isHabitCompleted completions h.id today)).length
  let bestStreak := habits.foldl (fun b h =>
    match getHabitStats habits completions h.id today with
    | some s => max b s.longestStreak
    | none => b) 0
  let totalCompletions : Nat := habits.foldl (fun t h =>
    match getHabitStats habits completions h.id today with
    | some s => t + s.totalCompletions
    | none => t) 0
  let todayProgress : ℤ :=
    if totalHabits > 0 then
      jsMathRound ((completedToday : ℚ) / (totalHabits : ℚ) * 100)
    else 0
  let overallSuccess : ℤ :=
    if totalPossibleDays habits nowMs > 0 then
      jsMathRound ((totalCompletions : ℚ) / ((totalPossibleDays habits nowMs : Int) : ℚ) * 100)
    else 0
  { totalHabits := totalHabits
    todayProgress := todayProgress
    bestStreak := bestStreak
    overallSuccess := overallSuccess
    completedToday := completedToday
    totalCompletions := totalCompletions }

end HabitManager

-- Basic lemmas about the JS-object operations.

theorem lookupKey_setKey_self {α : Type} (m : List (String × α)) (k : String) (v : α) :
    lookupKey (setKey m k v) k = some v := by
  induction m with
  | nil => simp [setKey, lookupKey]
  | cons p rest ih =>
      obtain ⟨k', w⟩ := p
      by_cases h : k' = k
      · simp [setKey, lookupKey, h]
      · simp [setKey, lookupKey, h, ih]

theorem lookupKey_setKey_ne {α : Type} (m : List (String × α)) (k k' : String) (v : α)
    (h : k' ≠ k) : lookupKey (setKey m k v) k' = lookupKey m k' := by
  induction m with
  | nil => simp [setKey, lookupKey, Ne.symm h]
  | cons p rest ih =>
      obtain ⟨k₀, w⟩ := p
      by_cases h0 : k₀ = k
      · subst h0
        simp [setKey, lookupKey, Ne.symm h]
      · simp [setKey, lookupKey, h0, ih]

theorem setKey_setKey_self {α : Type} (m : List (String × α)) (k : String) (v w : α) :
    setKey (setKey m k v) k w = setKey m k w := by
  induction m with
  | nil => simp [setKey]
  | cons p rest ih =>
      obtain ⟨k', u⟩ := p
      by_cases h : k' = k
      · simp [setKey, h]
      · simp [setKey, h, ih]

theorem setKey_lookupKey_self {α : Type} (m : List (String × α)) (k : String) (v : α)
    (h : lookupKey m k = some v) : setKey m k v = m := by
  induction m with
  | nil => simp [lookupKey] at h
  | cons p rest ih =>
      obtain ⟨k', w⟩ := p
      by_cases h0 : k' = k
      · subst h0
        simp [lookupKey] at h
        simp [setKey, h]
      · simp [lookupKey, h0] at h
        simp [setKey, h0, ih h]

theorem lookupKey_delKey_self {α : Type} (m : List (String × α)) (k : String) :
    lookupKey (delKey m k) k = none := by
  induction m with
  | nil => simp [delKey, lookupKey]
  | cons p rest ih =>
      obtain ⟨k', w⟩ := p
      by_cases h : k' = k
      · simpa [delKey, h] using ih
      · simpa [delKey, lookupKey, h] using ih

set_option maxRecDepth 40000

theorem lookupKey_delKey_ne {α : Type} (m : List (String × α)) (k k' : String)
    (h : k' ≠ k) : lookupKey (delKey m k) k' = lookupKey m k' := by
  induction m with
  | nil => simp [delKey, lookupKey]
  | cons p rest ih =>
      obtain ⟨k₀, w⟩ := p
      by_cases h0 : k₀ = k
      · subst h0
        simpa [delKey, lookupKey, Ne.symm h] using ih
      · by_cases h1 : k₀ = k'
        · subst h1
          simp [delKey, lookupKey, List.filter_cons, h]
        · simpa [delKey, lookupKey, List.filter_cons, h0, h1] using ih

/-- `isHabitCompleted` agrees with a membership scan of the habit's list
(with `[]` for an absent key), the scan `getHabitCompletions` performs. -/
theorem isHabitCompleted_eq_any (c : Completions) (hid : String) (d : Int) :
    StorageManager.isHabitCompleted c hid d =
      ((lookupKey c hid).getD []).any (fun r => r.date = d) := by
  cases hlk : lookupKey c hid <;> simp [StorageManager.isHabitCompleted, hlk]

/-- The running maximum of `longestRun` dominates `best` and the run that
continues `cur` through the leading completed entries of `l`. -/
theorem longestRun_ge (l : List DayCompletion) : ∀ cur best : Nat, cur ≤ best →
    max best (cur + HabitManager.leadingStreak l) ≤ HabitManager.longestRun l cur best := by
  induction l with
  | nil =>
      intro cur best h
      simp [HabitManager.leadingStreak, HabitManager.longestRun]
      omega
  | cons d rest ih =>
      intro cur best h
      by_cases hc : d.completed
      · have h1 := ih (cur + 1) (max best (cur + 1)) (le_max_right _ _)
        rw [max_le_iff] at h1
        obtain ⟨h1a, h1b⟩ := h1
        rw [max_le_iff] at h1a
        simp only [HabitManager.leadingStreak, HabitManager.longestRun, hc, if_true]
        rw [max_le_iff]
        exact ⟨h1a.1, by omega⟩
      · have h1 := ih 0 best (Nat.zero_le _)
        rw [max_le_iff] at h1
        simp [HabitManager.leadingStreak, HabitManager.longestRun, hc]
        omega

/-- C2: for every completion-log state, habit id and reference day, the
longest streak over the 365-day window is at least the current streak
computed over the same window. -/
theorem longestStreak_ge_currentStreak (c : Completions) (hid : String) (today : Int) :
    HabitManager.calculateCurrentStreak c hid today ≤
      HabitManager.calculateLongestStreak c hid today := by
  have h := longestRun_ge
    (StorageManager.getHabitCompletions c hid 365 today) 0 0 le_rfl
  rw [max_le_iff] at h
  simpa [HabitManager.calculateCurrentStreak, HabitManager.calculateLongestStreak]
    using h.2

/-- C1: evidence against the claim, at the concrete log where habit `"h1"`
is completed exactly on the reference day (day `0`). The reference day is
completed, yet `calculateCurrentStreak` returns `0` — because the window
returned by `getHabitCompletions` is ordered oldest-day-first (its head is
day `-364`) and the streak loop scans it from index `0`, i.e. from the
OLDEST day of the window, not from the reference day. -/
theorem currentStreak_scans_oldest_first :
    HabitManager.calculateCurrentStreak [("h1", [⟨0, 0⟩])] "h1" 0 = 0 ∧
    StorageManager.isHabitCompleted [("h1", [⟨0, 0⟩])] "h1" 0 = true ∧
    (StorageManager.getHabitCompletions [("h1", [⟨0, 0⟩])] "h1" 365 0).head?.map
      DayCompletion.date = some (-364) ∧
    HabitManager.calculateCurrentStreak [("h1", [⟨-364, 0⟩])] "h1" 0 = 1 := by
  refine ⟨by decide, by decide, by decide, by decide⟩

/-- C4: deleting a habit cascades. After `StorageManager.deleteHabit`, every
entry of `getHabitCompletions` for that id (any window size, any reference
day) has `completed = false`, and `getHabitStats` for that id returns
`none` (the not-found result). -/
theorem deleteHabit_cascades (habits : List Habit) (c : Completions)
    (hid : String) (days : Nat) (today : Int) :
    (∀ x ∈ StorageManager.getHabitCompletions
        (StorageManager.deleteHabit habits c hid).2 hid days today,
      x.completed = false) ∧
    HabitManager.getHabitStats (StorageManager.deleteHabit habits c hid).1
      (StorageManager.deleteHabit habits c hid).2 hid today = none := by
  constructor
  · intro x hx
    simp [StorageManager.getHabitCompletions, StorageManager.deleteHabit,
      lookupKey_delKey_self] at hx
    obtain ⟨j, hj, rfl⟩ := hx
    rfl
  · have hfind : ((StorageManager.deleteHabit habits c hid).1.find?
        (fun h => h.id = hid)) = none := by
      rw [List.find?_eq_none]
      intro a ha
      simp [StorageManager.deleteHabit, List.mem_filter] at ha
      simp [ha.2]
    simp [HabitManager.getHabitStats, hfind]

/-- `markHabitComplete` written as a single key assignment. -/
theorem markHabitComplete_eq_setKey (c : Completions) (hid : String) (d t : Int) :
    StorageManager.markHabitComplete c hid d t = setKey c hid
      (if ((lookupKey c hid).getD []).any (fun r => r.date = d)
       then (lookupKey c hid).getD []
       else (lookupKey c hid).getD [] ++ [{ date := d, timestamp := t }]) := rfl

/-- After the push-if-absent step of `markHabitComplete`, a record for the
marked date is present. -/
theorem any_after_mark (l : List CompletionRecord) (d t : Int) :
    (if l.any (fun r => r.date = d) then l
     else l ++ [{ date := d, timestamp := t }]).any (fun r => r.date = d) = true := by
  by_cases h : l.any (fun r => r.date = d) <;> simp [h]

/-- C8: marking a habit complete on day `d` makes `isHabitCompleted` true
for `(hid, d)`; a subsequent `markHabitIncomplete` makes it false again;
and when no record for `(hid, d)` exists, `markHabitIncomplete` leaves the
completions store exactly unchanged. -/
theorem markComplete_markIncomplete_isCompleted (c : Completions)
    (hid : String) (d t : Int)
    (habsent : StorageManager.isHabitCompleted c hid d = false) :
    StorageManager.isHabitCompleted
      (StorageManager.markHabitComplete c hid d t) hid d = true ∧
    StorageManager.isHabitCompleted
      (StorageManager.markHabitIncomplete
        (StorageManager.markHabitComplete c hid d t) hid d) hid d = false ∧
    StorageManager.markHabitIncomplete c hid d = c := by
  refine ⟨?_, ?_, ?_⟩
  · rw [markHabitComplete_eq_setKey]
    simp only [StorageManager.isHabitCompleted, lookupKey_setKey_self]
    exact any_after_mark _ d t
  · rw [markHabitComplete_eq_setKey]
    simp only [StorageManager.markHabitIncomplete, lookupKey_setKey_self]
    simp only [StorageManager.isHabitCompleted, lookupKey_setKey_self]
    rw [List.any_eq_false]
    intro r hr
    rw [List.mem_filter] at hr
    simpa using hr.2
  · cases hlk : lookupKey c hid with
    | none => simp [StorageManager.markHabitIncomplete, hlk]
    | some l =>
        have hall : ∀ r ∈ l, r.date ≠ d := by
          intro r hr
          have heq := isHabitCompleted_eq_any c hid d
          rw [habsent, hlk] at heq
          simp only [Option.getD_some] at heq
          have hany := List.any_eq_false.mp heq.symm
          simpa using hany r hr
        have hfilter : l.filter (fun r => r.date ≠ d) = l := by
          rw [List.filter_eq_self]
          intro r hr
          simpa using hall r hr
        simp only [StorageManager.markHabitIncomplete, hlk]
        rw [hfilter]
        exact setKey_lookupKey_self c hid l hlk

/-- Witness for `markComplete_markIncomplete_isCompleted` at the empty
store, habit `"a"`, day `0`. -/
theorem markComplete_markIncomplete_isCompleted_witness :
    StorageManager.isHabitCompleted [] "a" 0 = false ∧
    (StorageManager.isHabitCompleted
      (StorageManager.markHabitComplete [] "a" 0 0) "a" 0 = true ∧
    StorageManager.isHabitCompleted
      (StorageManager.markHabitIncomplete
        (StorageManager.markHabitComplete [] "a" 0 0) "a" 0) "a" 0 = false ∧
    StorageManager.markHabitIncomplete [] "a" 0 = []) :=
  ⟨by decide, markComplete_markIncomplete_isCompleted [] "a" 0 0 (by decide)⟩

/-- The invariant of C7: for every habit id and date, the habit's
completions list holds at most one record for that date. -/
def AtMostOnePerDate (c : Completions) : Prop :=
  ∀ (hid : String) (d : Int),
    (((lookupKey c hid).getD []).filter (fun r => r.date = d)).length ≤ 1

/-- C7: `markHabitComplete` is idempotent — marking the same habit and date
twice (with any timestamps) produces exactly the state one marking
produces — and each completion-store operation (`markHabitComplete`,
`markHabitIncomplete`, and the completions part of `deleteHabit`, i.e.
`delKey`) preserves the at-most-one-record-per-`(habitId, date)` invariant;
in particular a duplicate `markHabitComplete` is a no-op, not an error. -/
theorem markHabitComplete_idempotent_and_invariant (c : Completions)
    (hid : String) (d t1 t2 : Int) (hinv : AtMostOnePerDate c) :
    StorageManager.markHabitComplete
        (StorageManager.markHabitComplete c hid d t1) hid d t2 =
      StorageManager.markHabitComplete c hid d t1 ∧
    AtMostOnePerDate (StorageManager.markHabitComplete c hid d t1) ∧
    AtMostOnePerDate (StorageManager.markHabitIncomplete c hid d) ∧
    AtMostOnePerDate (delKey c hid) := by
  refine ⟨?_, ?_, ?_, ?_⟩
  · conv_lhs => rw [markHabitComplete_eq_setKey c hid d t1]
    rw [markHabitComplete_eq_setKey, lookupKey_setKey_self]
    simp only [Option.getD_some, any_after_mark, if_true]
    rw [setKey_setKey_self]
    exact (markHabitComplete_eq_setKey c hid d t1).symm
  · intro hid' d'
    rw [markHabitComplete_eq_setKey]
    by_cases hk : hid' = hid
    · subst hk
      rw [lookupKey_setKey_self]
      by_cases hmem : ((lookupKey c hid').getD []).any (fun r => r.date = d)
      · simpa [hmem] using hinv hid' d'
      · simp only [hmem, if_false, Option.getD_some, List.filter_append]
        by_cases hd : d' = d
        · subst hd
          have hnone : ((lookupKey c hid').getD []).filter
              (fun r => r.date = d') = [] := by
            rw [List.filter_eq_nil_iff]
            intro r hr
            have hfalse : ((lookupKey c hid').getD []).any
                (fun r => r.date = d') = false := by
              simpa using hmem
            simpa using List.any_eq_false.mp hfalse r hr
          simp [hnone]
        · have : ([({ date := d, timestamp := t1 } : CompletionRecord)].filter
              (fun r => r.date = d')) = [] := by simp [Ne.symm hd]
          simpa [this] using hinv hid' d'
    · rw [lookupKey_setKey_ne _ _ _ _ hk]
      exact hinv hid' d'
  · intro hid' d'
    cases hlk : lookupKey c hid with
    | none => simpa [StorageManager.markHabitIncomplete, hlk] using hinv hid' d'
    | some l =>
        simp only [StorageManager.markHabitIncomplete, hlk]
        by_cases hk : hid' = hid
        · subst hk
          rw [lookupKey_setKey_self]
          have hsub : List.Sublist ((l.filter (fun r => r.date ≠ d)).filter
              (fun r => r.date = d')) (l.filter (fun r => r.date = d')) :=
            List.Sublist.filter _ (List.filter_sublist l)
          have hlen := hsub.length_le
          have hl := hinv hid' d'
          rw [hlk] at hl
          simp only [Option.getD_some] at hl ⊢
          omega
        · rw [lookupKey_setKey_ne _ _ _ _ hk]
          exact hinv hid' d'
  · intro hid' d'
    by_cases hk : hid' = hid
    · subst hk
      simp [lookupKey_delKey_self]
    · rw [lookupKey_delKey_ne _ _ _ hk]
      exact hinv hid' d'

/-- Witness for `markHabitComplete_idempotent_and_invariant` at the empty
store (which satisfies the invariant), habit `"a"`, day `0`. -/
theorem markHabitComplete_idempotent_and_invariant_witness :
    AtMostOnePerDate [] ∧
    (StorageManager.markHabitComplete
        (StorageManager.markHabitComplete [] "a" 0 1) "a" 0 2 =
      StorageManager.markHabitComplete [] "a" 0 1 ∧
    AtMostOnePerDate (StorageManager.markHabitComplete [] "a" 0 1) ∧
    AtMostOnePerDate (StorageManager.markHabitIncomplete [] "a" 0) ∧
    AtMostOnePerDate (delKey [] "a")) :=
  have hinv : AtMostOnePerDate [] := by
    intro hid d
    simp [AtMostOnePerDate, lookupKey]
  ⟨hinv, markHabitComplete_idempotent_and_invariant [] "a" 0 1 2 hinv⟩

/-- C10: when no stored habit has the requested id, the storage-level
`updateHabit` returns `null` and the stored list is returned unchanged, and
the manager-level `updateHabit` likewise returns `null` with both the
in-memory list and the stored list unchanged. -/
theorem updateHabit_not_found (mem store : List Habit) (hid : String)
    (upd : Habit → Habit) (now : Int)
    (hnot : ∀ hb ∈ store, hb.id ≠ hid) :
    StorageManager.updateHabit store hid upd now = (none, store) ∧
    HabitManager.updateHabit mem store hid upd now = (none, mem, store) := by
  have hstore : StorageManager.updateHabit store hid upd now = (none, store) := by
    induction store with
    | nil => rfl
    | cons hb rest ih =>
        have hne : hb.id ≠ hid := hnot hb (List.mem_cons_self hb rest)
        have hrest : ∀ x ∈ rest, x.id ≠ hid := fun x hx =>
          hnot x (List.mem_cons_of_mem hb hx)
        simp [StorageManager.updateHabit, hne, ih hrest]
  refine ⟨hstore, ?_⟩
  simp [HabitManager.updateHabit, hstore]

/-- Witness for `updateHabit_not_found`: one stored habit `"a"`, lookup of
the absent id `"x"`. -/
theorem updateHabit_not_found_witness :
    (∀ hb ∈ [({ id := "a", name := "n", createdAt := 0, updatedAt := 0 } : Habit)],
      hb.id ≠ "x") ∧
    (StorageManager.updateHabit
        [{ id := "a", name := "n", createdAt := 0, updatedAt := 0 }] "x" id 5 =
      (none, [{ id := "a", name := "n", createdAt := 0, updatedAt := 0 }]) ∧
    HabitManager.updateHabit []
        [{ id := "a", name := "n", createdAt := 0, updatedAt := 0 }] "x" id 5 =
      (none, [], [{ id := "a", name := "n", createdAt := 0, updatedAt := 0 }])) :=
  ⟨by decide, updateHabit_not_found []
    [{ id := "a", name := "n", createdAt := 0, updatedAt := 0 }] "x" id 5 (by decide)⟩

/-- C9: `getOverallStats` never divides by zero. With zero habits it returns
`todayProgress = 0`, `bestStreak = 0` and `overallSuccess = 0`; and for any
habit list whose summed capped-days-since-creation denominator
`totalPossibleDays` is `0`, `overallSuccess` is `0`. -/
theorem getOverallStats_no_division_by_zero (habits : List Habit)
    (c c0 : Completions) (today nowMs today0 nowMs0 : Int)
    (hden : HabitManager.totalPossibleDays habits nowMs = 0) :
    (HabitManager.getOverallStats [] c0 today0 nowMs0).todayProgress = 0 ∧
    (HabitManager.getOverallStats [] c0 today0 nowMs0).bestStreak = 0 ∧
    (HabitManager.getOverallStats [] c0 today0 nowMs0).overallSuccess = 0 ∧
    (HabitManager.getOverallStats habits c today nowMs).overallSuccess = 0 := by
  refine ⟨rfl, rfl, rfl, ?_⟩
  simp [HabitManager.getOverallStats, hden]

/-- Witness for `getOverallStats_no_division_by_zero`: one habit created at
the current instant (`nowMs = createdAt = 0`), so its capped
days-since-creation is `0` and the summed denominator is `0`. -/
theorem getOverallStats_no_division_by_zero_witness :
    HabitManager.totalPossibleDays
        [{ id := "a", name := "n", createdAt := 0, updatedAt := 0 }] 0 = 0 ∧
    ((HabitManager.getOverallStats [] [] 0 0).todayProgress = 0 ∧
    (HabitManager.getOverallStats [] [] 0 0).bestStreak = 0 ∧
    (HabitManager.getOverallStats [] [] 0 0).overallSuccess = 0 ∧
    (HabitManager.getOverallStats
        [{ id := "a", name := "n", createdAt := 0, updatedAt := 0 }] [] 0 0).overallSuccess = 0) :=
  have hden : HabitManager.totalPossibleDays
      [{ id := "a", name := "n", createdAt := 0, updatedAt := 0 }] 0 = 0 := by
    norm_num [HabitManager.totalPossibleDays, daysSinceCreation]
  ⟨hden, getOverallStats_no_division_by_zero
    [{ id := "a", name := "n", createdAt := 0, updatedAt := 0 }] [] [] 0 0 0 0 hden⟩

/-- C5: the window query returns exactly `days` `(date, completed)` pairs,
and the `i`-th pair (0-based) is the day `days - 1 - i` days before `today`
with its completion status — i.e. the sequence covers the most recent
`days` calendar days ending `today`, oldest first, consecutive. The query
is a pure function of the log state and `today`, so repeated calls with
the same arguments return this same sequence (determinism/restartability
is immediate from the characterization). -/
theorem getHabitCompletions_window (c : Completions) (hid : String)
    (days : Nat) (today : Int) (hd : 1 ≤ days) :
    (StorageManager.getHabitCompletions c hid days today).length = days ∧
    ∀ i, i < days → (StorageManager.getHabitCompletions c hid days today)[i]? =
      some { date := today - ((days - 1 - i : Nat) : Int),
             completed := StorageManager.isHabitCompleted c hid
               (today - ((days - 1 - i : Nat) : Int)) } := by
  refine ⟨by simp [StorageManager.getHabitCompletions], ?_⟩
  intro i hi
  simp only [StorageManager.getHabitCompletions, List.map_map]
  rw [List.getElem?_map, List.getElem?_range hi]
  simp [isHabitCompleted_eq_any]

/-- Witness for `getHabitCompletions_window` at the empty log, habit `"a"`,
`days = 3`, `today = 10`. -/
theorem getHabitCompletions_window_witness :
    1 ≤ 3 ∧
    ((StorageManager.getHabitCompletions [] "a" 3 10).length = 3 ∧
    ∀ i, i < 3 → (StorageManager.getHabitCompletions [] "a" 3 10)[i]? =
      some { date := 10 - ((3 - 1 - i : Nat) : Int),
             completed := StorageManager.isHabitCompleted [] "a"
               (10 - ((3 - 1 - i : Nat) : Int)) }) :=
  ⟨by decide, getHabitCompletions_window [] "a" 3 10 (by decide)⟩

/-- C3 counterexample. The document `{habits: [...]}`, which is missing the
`completions` and `settings` top-level keys (a partial document), is NOT
rejected: `importData` returns `true` and mutates the store (its habits
section is applied), contradicting "a partial or malformed document is
rejected as a whole with no state mutation". -/
theorem importData_applies_partial_document :
    (StorageManager.importData
        { habits := [], completions := [], settings := { notifsEnabled := false, reminderTimes := [] } }
        { habits := some [{ id := "a", name := "n", createdAt := 0, updatedAt := 0 }],
          completions := none, settings := none }).2 = true ∧
    (StorageManager.importData
        { habits := [], completions := [], settings := { notifsEnabled := false, reminderTimes := [] } }
        { habits := some [{ id := "a", name := "n", createdAt := 0, updatedAt := 0 }],
          completions := none, settings := none }).1 ≠
      { habits := [], completions := [], settings := { notifsEnabled := false, reminderTimes := [] } } := by
  refine ⟨rfl, by decide⟩

/-- C3 as amended: `importData` performs no presence validation and is not
atomic. For every store and document it returns `true`, and each of the
three sections is applied independently — the resulting habits,
completions and settings are the document's section when its key is
present and the pre-import value otherwise. -/
theorem importData_sectionwise (s : StorageManager.StorageState)
    (d : StorageManager.ImportDoc) :
    (StorageManager.importData s d).2 = true ∧
    (StorageManager.importData s d).1.habits = d.habits.getD s.habits ∧
    (StorageManager.importData s d).1.completions = d.completions.getD s.completions ∧
    (StorageManager.importData s d).1.settings = d.settings.getD s.settings := by
  obtain ⟨oh, oc, os⟩ := d
  cases oh <;> cases oc <;> cases os <;>
    simp [StorageManager.importData]

theorem log2Aux_spec : ∀ fuel n : ℕ, 0 < n → n ≤ fuel →
    2 ^ log2Aux fuel n ≤ n ∧ n < 2 ^ (log2Aux fuel n + 1) := by
  intro fuel
  induction fuel with
  | zero => intro n h0 h1; omega
  | succ fuel ih =>
      intro n h0 h1
      by_cases h2 : 2 ≤ n
      · have hn2 : 0 < n / 2 := Nat.div_pos h2 (by norm_num)
        have hle : n / 2 ≤ fuel := by omega
        obtain ⟨ha, hb⟩ := ih (n / 2) hn2 hle
        simp only [log2Aux, h2, if_true]
        have e1 : (2:ℕ) ^ (log2Aux fuel (n / 2) + 1) = 2 * 2 ^ log2Aux fuel (n / 2) := by
          ring
        have e2 : (2:ℕ) ^ (log2Aux fuel (n / 2) + 1 + 1) =
            4 * 2 ^ log2Aux fuel (n / 2) := by ring
        omega
      · have hn1 : n = 1 := by omega
        subst hn1
        simp [log2Aux, h2]

theorem log2Nat_spec {n : ℕ} (h : 0 < n) :
    2 ^ log2Nat n ≤ n ∧ n < 2 ^ (log2Nat n + 1) :=
  log2Aux_spec n n h le_rfl

theorem pow2_pos (s : ℤ) : 0 < pow2 s := by
  rw [pow2]
  positivity

theorem pow2_add (a b : ℤ) : pow2 (a + b) = pow2 a * pow2 b := by
  rw [pow2, pow2, pow2, zpow_add₀ (by norm_num : (2:ℚ) ≠ 0)]

theorem pow2_toNat {s : ℤ} (h : 0 ≤ s) : pow2 s = ((2 ^ s.toNat : ℕ) : ℚ) := by
  rw [pow2, ← Int.toNat_of_nonneg h, zpow_natCast]
  push_cast
  rw [Int.toNat_of_nonneg h]

theorem pow2_neg (s : ℤ) : pow2 (-s) = (pow2 s)⁻¹ := by
  rw [pow2, pow2, zpow_neg]

theorem pow2_mono {a b : ℤ} (h : a ≤ b) : pow2 a ≤ pow2 b := by
  rw [pow2, pow2]
  exact zpow_le_zpow_right₀ (by norm_num) h

theorem gePow2_iff {num den : ℕ} (hden : 0 < den) (e : ℤ) :
    gePow2 num den e = true ↔ pow2 e ≤ (num : ℚ) / den := by
  rw [gePow2]
  by_cases he : 0 ≤ e
  · simp only [he, if_true, decide_eq_true_eq]
    rw [pow2_toNat he, le_div_iff₀ (by exact_mod_cast hden)]
    have hc : ((2 ^ e.toNat : ℕ) : ℚ) * (den : ℚ) = ((den * 2 ^ e.toNat : ℕ) : ℚ) := by
      push_cast; ring
    rw [hc, Nat.cast_le]
  · simp only [he, if_false, decide_eq_true_eq]
    have he' : 0 ≤ -e := by omega
    have hp : pow2 e = ((2 ^ (-e).toNat : ℕ) : ℚ)⁻¹ := by
      rw [← neg_neg e, pow2_neg, pow2_toNat he', neg_neg]
    rw [hp, inv_eq_one_div, div_le_div_iff₀ (by positivity) (by exact_mod_cast hden)]
    have hc : (num : ℚ) * ((2 ^ (-e).toNat : ℕ) : ℚ) = ((num * 2 ^ (-e).toNat : ℕ) : ℚ) := by
      push_cast; ring
    rw [one_mul, hc, Nat.cast_le]

theorem floorLog2Pos_spec {num den : ℕ} (hnum : 0 < num) (hden : 0 < den) :
    pow2 (floorLog2Pos num den) ≤ (num : ℚ) / den ∧
    (num : ℚ) / den < pow2 (floorLog2Pos num den + 1) := by
  obtain ⟨ha1, ha2⟩ := log2Nat_spec hnum
  obtain ⟨hb1, hb2⟩ := log2Nat_spec hden
  have hqpos : (0 : ℚ) < (num : ℚ) / den := by positivity
  have hupper : (num : ℚ) / den < pow2 ((log2Nat num : ℤ) - log2Nat den + 1) := by
    have hnat : num * 2 ^ log2Nat den < 2 ^ (log2Nat num + 1) * den := by
      calc num * 2 ^ log2Nat den
          < 2 ^ (log2Nat num + 1) * 2 ^ log2Nat den :=
            mul_lt_mul_of_pos_right ha2 (by positivity)
        _ ≤ 2 ^ (log2Nat num + 1) * den :=
            mul_le_mul_of_nonneg_left hb1 (by positivity)
    have hp : pow2 ((log2Nat num : ℤ) - log2Nat den + 1) =
        ((2 ^ (log2Nat num + 1) : ℕ) : ℚ) / ((2 ^ log2Nat den : ℕ) : ℚ) := by
      rw [show ((log2Nat num : ℤ) - log2Nat den + 1) =
        ((log2Nat num + 1 : ℕ) : ℤ) - ((log2Nat den : ℕ) : ℤ) by push_cast; ring]
      rw [pow2, zpow_sub₀ (by norm_num : (2:ℚ) ≠ 0), zpow_natCast, zpow_natCast]
      push_cast
      ring
    rw [hp, div_lt_div_iff₀ (by exact_mod_cast hden) (by positivity)]
    exact_mod_cast hnat
  have hlower : pow2 ((log2Nat num : ℤ) - log2Nat den - 1) ≤ (num : ℚ) / den := by
    have hnat : 2 ^ log2Nat num * den ≤ num * 2 ^ (log2Nat den + 1) := by
      calc 2 ^ log2Nat num * den ≤ num * den :=
            mul_le_mul_of_nonneg_right ha1 (Nat.zero_le _)
        _ ≤ num * 2 ^ (log2Nat den + 1) :=
            mul_le_mul_of_nonneg_left (le_of_lt hb2) (Nat.zero_le _)
    have hp : pow2 ((log2Nat num : ℤ) - log2Nat den - 1) =
        ((2 ^ log2Nat num : ℕ) : ℚ) / ((2 ^ (log2Nat den + 1) : ℕ) : ℚ) := by
      rw [show ((log2Nat num : ℤ) - log2Nat den - 1) =
        ((log2Nat num : ℕ) : ℤ) - ((log2Nat den + 1 : ℕ) : ℤ) by push_cast; ring]
      rw [pow2, zpow_sub₀ (by norm_num : (2:ℚ) ≠ 0), zpow_natCast, zpow_natCast]
      push_cast
      ring
    rw [hp, div_le_div_iff₀ (by positivity) (by exact_mod_cast hden)]
    exact_mod_cast hnat
  have hdef : floorLog2Pos num den =
      if gePow2 num den ((log2Nat num : ℤ) - log2Nat den) then
        ((log2Nat num : ℤ) - log2Nat den)
      else ((log2Nat num : ℤ) - log2Nat den) - 1 := rfl
  rw [hdef]
  by_cases hg : gePow2 num den ((log2Nat num : ℤ) - log2Nat den)
  · rw [if_pos hg]
    exact ⟨(gePow2_iff hden _).mp hg, hupper⟩
  · rw [if_neg hg]
    have hlt : (num : ℚ) / den < pow2 ((log2Nat num : ℤ) - log2Nat den) := by
      by_contra hcon
      exact hg ((gePow2_iff hden _).mpr (le_of_not_lt hcon))
    constructor
    · exact hlower
    · rw [show ((log2Nat num : ℤ) - log2Nat den - 1 + 1) =
        ((log2Nat num : ℤ) - log2Nat den) by ring]
      exact hlt

/-- Division with remainder over `ℚ`: `N / D = (N div D) + (N mod D) / D`. -/
theorem natCast_div_split {N D : ℕ} (hD : 0 < D) :
    (N : ℚ) / D = ((N / D : ℕ) : ℚ) + ((N % D : ℕ) : ℚ) / D := by
  have hDq : (0 : ℚ) < (D : ℚ) := by exact_mod_cast hD
  have h0 : (D : ℚ) * ((N / D : ℕ) : ℚ) + ((N % D : ℕ) : ℚ) = (N : ℚ) := by
    exact_mod_cast congrArg (Nat.cast : ℕ → ℚ) (Nat.div_add_mod N D)
  rw [← h0]
  field_simp
  ring

theorem two_mul_lt_iff_half {r D : ℕ} (hD : 0 < D) :
    2 * r < D ↔ ((r : ℕ) : ℚ) / D < 1 / 2 := by
  have hDq : (0 : ℚ) < (D : ℚ) := by exact_mod_cast hD
  rw [div_lt_div_iff₀ hDq (by norm_num : (0:ℚ) < 2)]
  constructor
  · intro h
    have : ((2 * r : ℕ) : ℚ) < (D : ℚ) := by exact_mod_cast h
    push_cast at this
    linarith
  · intro h
    have : ((2 * r : ℕ) : ℚ) < (D : ℚ) := by push_cast; linarith
    exact_mod_cast this

theorem lt_two_mul_iff_half {r D : ℕ} (hD : 0 < D) :
    D < 2 * r ↔ 1 / 2 < ((r : ℕ) : ℚ) / D := by
  have hDq : (0 : ℚ) < (D : ℚ) := by exact_mod_cast hD
  rw [div_lt_div_iff₀ (by norm_num : (0:ℚ) < 2) hDq]
  constructor
  · intro h
    have : (D : ℚ) < ((2 * r : ℕ) : ℚ) := by exact_mod_cast h
    push_cast at this
    linarith
  · intro h
    have : (D : ℚ) < ((2 * r : ℕ) : ℚ) := by push_cast; linarith
    exact_mod_cast this

/-- The round-to-nearest-even integer of `N / D` is within `1/2` of it. -/
theorem rneNat_bracket {N D : ℕ} (hD : 0 < D) :
    (N : ℚ) / D - 1 / 2 ≤ (rneNat N D : ℚ) ∧
    (rneNat N D : ℚ) ≤ (N : ℚ) / D + 1 / 2 := by
  have hkey := @natCast_div_split N D hD
  have hr0 : (0 : ℚ) ≤ ((N % D : ℕ) : ℚ) / D := by positivity
  have hr1 : ((N % D : ℕ) : ℚ) / D < 1 := by
    rw [div_lt_one (by exact_mod_cast hD)]
    exact_mod_cast Nat.mod_lt N hD
  have hc1 : ((N / D + 1 : ℕ) : ℚ) = ((N / D : ℕ) : ℚ) + 1 := by push_cast; ring
  by_cases h1 : 2 * (N % D) < D
  · have hhalf := (two_mul_lt_iff_half hD).mp h1
    simp only [rneNat, h1, if_true]
    constructor <;> linarith
  · by_cases h2 : D < 2 * (N % D)
    · have hhalf := (lt_two_mul_iff_half hD).mp h2
      simp only [rneNat, h1, h2, if_false, if_true]
      rw [hc1]
      constructor <;> linarith
    · have heq : 2 * (N % D) = D := by omega
      have hhalf : ((N % D : ℕ) : ℚ) / D = 1 / 2 := by
        have hDc : (D : ℚ) = 2 * ((N % D : ℕ) : ℚ) := by
          have := congrArg (Nat.cast : ℕ → ℚ) heq
          push_cast at this
          linarith
        have hrpos : (0 : ℚ) < ((N % D : ℕ) : ℚ) := by
          have : 0 < N % D := by omega
          exact_mod_cast this
        rw [hDc, div_eq_iff (by linarith : 2 * ((N % D : ℕ) : ℚ) ≠ 0)]
        ring
      by_cases h3 : N / D % 2 = 0
      · simp only [rneNat, h1, h2, h3, if_false, if_true]
        constructor <;> linarith
      · simp only [rneNat, h1, h2, h3, if_false]
        rw [hc1]
        constructor <;> linarith

/-- `rneNat` depends only on the value `N / D`. -/
theorem rneNat_congr {N1 D1 N2 D2 : ℕ} (hD1 : 0 < D1) (hD2 : 0 < D2)
    (hval : (N1 : ℚ) / D1 = (N2 : ℚ) / D2) : rneNat N1 D1 = rneNat N2 D2 := by
  have hm0 : N1 / D1 = N2 / D2 := by
    have e1 : N1 / D1 = ⌊(N1 : ℚ) / D1⌋₊ := by
      rw [Nat.floor_div_nat, Nat.floor_natCast]
    have e2 : N2 / D2 = ⌊(N2 : ℚ) / D2⌋₊ := by
      rw [Nat.floor_div_nat, Nat.floor_natCast]
    rw [e1, e2, hval]
  have hfrac : ((N1 % D1 : ℕ) : ℚ) / D1 = ((N2 % D2 : ℕ) : ℚ) / D2 := by
    have k1 := @natCast_div_split N1 D1 hD1
    have k2 := @natCast_div_split N2 D2 hD2
    have : ((N1 / D1 : ℕ) : ℚ) = ((N2 / D2 : ℕ) : ℚ) := congrArg (Nat.cast : ℕ → ℚ) hm0
    linarith [hval, k1, k2]
  have hcond1 : (2 * (N1 % D1) < D1) ↔ (2 * (N2 % D2) < D2) := by
    rw [two_mul_lt_iff_half hD1, two_mul_lt_iff_half hD2, hfrac]
  have hcond2 : (D1 < 2 * (N1 % D1)) ↔ (D2 < 2 * (N2 % D2)) := by
    rw [lt_two_mul_iff_half hD1, lt_two_mul_iff_half hD2, hfrac]
  simp only [rneNat, hm0]
  by_cases h1 : 2 * (N2 % D2) < D2
  · simp [hcond1.mpr h1, h1]
  · by_cases h2 : D2 < 2 * (N2 % D2)
    · simp [hcond1, h1, hcond2.mpr h2, h2]
    · simp [hcond1, h1, hcond2, h2]

theorem pow2_zero : pow2 0 = 1 := by
  rw [pow2, zpow_zero]

theorem pow2_strict_mono {a b : ℤ} (h : a < b) : pow2 a < pow2 b := by
  rw [pow2, pow2]
  exact zpow_lt_zpow_right₀ (by norm_num) h

/-- The exponent with `2 ^ e ≤ q < 2 ^ (e + 1)` is unique. -/
theorem floorLog2_unique {q : ℚ} {e f : ℤ}
    (he : pow2 e ≤ q ∧ q < pow2 (e + 1))
    (hf : pow2 f ≤ q ∧ q < pow2 (f + 1)) : e = f := by
  by_contra hne
  rcases lt_or_gt_of_ne hne with h | h
  · have : pow2 (e + 1) ≤ pow2 f := pow2_mono (by omega)
    linarith [he.2, hf.1]
  · have : pow2 (f + 1) ≤ pow2 e := pow2_mono (by omega)
    linarith [he.1, hf.2]

/-- `floorLog2Pos` depends only on the value `num / den`. -/
theorem floorLog2Pos_congr {n1 d1 n2 d2 : ℕ} (hn1 : 0 < n1) (hd1 : 0 < d1)
    (hn2 : 0 < n2) (hd2 : 0 < d2) (hval : (n1 : ℚ) / d1 = (n2 : ℚ) / d2) :
    floorLog2Pos n1 d1 = floorLog2Pos n2 d2 := by
  have h1 := floorLog2Pos_spec hn1 hd1
  have h2 := floorLog2Pos_spec hn2 hd2
  rw [hval] at h1
  exact floorLog2_unique h1 h2

theorem roundPosME_eq_pos {num den : ℕ} (hs : 0 ≤ 52 - floorLog2Pos num den) :
    roundPosME num den =
      (rneNat (num * 2 ^ (52 - floorLog2Pos num den).toNat) den,
        floorLog2Pos num den) := by
  simp only [roundPosME]
  rw [if_pos hs]

theorem roundPosME_eq_neg {num den : ℕ} (hs : ¬ 0 ≤ 52 - floorLog2Pos num den) :
    roundPosME num den =
      (rneNat num (den * 2 ^ (-(52 - floorLog2Pos num den)).toNat),
        floorLog2Pos num den) := by
  simp only [roundPosME]
  rw [if_neg hs]

theorem roundPosME_snd (num den : ℕ) :
    (roundPosME num den).2 = floorLog2Pos num den := by
  by_cases hs : 0 ≤ 52 - floorLog2Pos num den
  · rw [roundPosME_eq_pos hs]
  · rw [roundPosME_eq_neg hs]

/-- The value of the scaled fraction handed to `rneNat` inside
`roundPosME`, positive-shift branch. -/
theorem scaled_val_pos {num den : ℕ} {e : ℤ} (hs : 0 ≤ 52 - e) :
    ((num * 2 ^ (52 - e).toNat : ℕ) : ℚ) / den = (num : ℚ) / den * pow2 (52 - e) := by
  rw [pow2_toNat hs]
  push_cast
  ring

/-- The value of the scaled fraction handed to `rneNat` inside
`roundPosME`, negative-shift branch. -/
theorem scaled_val_neg {num den : ℕ} {e : ℤ} (hs : ¬ 0 ≤ 52 - e) :
    ((num : ℕ) : ℚ) / ((den * 2 ^ (-(52 - e)).toNat : ℕ) : ℚ) =
      (num : ℚ) / den * pow2 (52 - e) := by
  have hs' : 0 ≤ -(52 - e) := by omega
  have hp : pow2 (52 - e) = ((2 ^ (-(52 - e)).toNat : ℕ) : ℚ)⁻¹ := by
    rw [← neg_neg (52 - e), pow2_neg, pow2_toNat hs', neg_neg]
  rw [hp]
  push_cast
  rw [div_mul_eq_div_div]
  rw [div_eq_mul_inv ((num : ℚ) / den)]

/-- `roundPosME` depends only on the value `num / den`. -/
theorem roundPosME_congr {n1 d1 n2 d2 : ℕ} (hn1 : 0 < n1) (hd1 : 0 < d1)
    (hn2 : 0 < n2) (hd2 : 0 < d2) (hval : (n1 : ℚ) / d1 = (n2 : ℚ) / d2) :
    roundPosME n1 d1 = roundPosME n2 d2 := by
  have he := floorLog2Pos_congr hn1 hd1 hn2 hd2 hval
  by_cases hs : 0 ≤ 52 - floorLog2Pos n1 d1
  · rw [roundPosME_eq_pos hs, he, roundPosME_eq_pos (he ▸ hs)]
    have hv : ((n1 * 2 ^ (52 - floorLog2Pos n2 d2).toNat : ℕ) : ℚ) / d1 =
        ((n2 * 2 ^ (52 - floorLog2Pos n2 d2).toNat : ℕ) : ℚ) / d2 := by
      rw [scaled_val_pos (he ▸ hs), scaled_val_pos (he ▸ hs), hval]
    rw [rneNat_congr hd1 hd2 hv]
  · rw [roundPosME_eq_neg hs, he, roundPosME_eq_neg (he ▸ hs)]
    have hpow : 0 < 2 ^ (-(52 - floorLog2Pos n2 d2)).toNat := by positivity
    have hv : ((n1 : ℕ) : ℚ) / ((d1 * 2 ^ (-(52 - floorLog2Pos n2 d2)).toNat : ℕ) : ℚ) =
        ((n2 : ℕ) : ℚ) / ((d2 * 2 ^ (-(52 - floorLog2Pos n2 d2)).toNat : ℕ) : ℚ) := by
      rw [scaled_val_neg (he ▸ hs), scaled_val_neg (he ▸ hs), hval]
    rw [rneNat_congr (Nat.mul_pos hd1 hpow) (Nat.mul_pos hd2 hpow) hv]

/-- The binary64 rounding of `num / den > 0` is within half an ulp:
`|roundPos - num/den| ≤ 2 ^ (e - 53)` where `e` is the leading-bit
exponent. -/
theorem roundPos_bracket {num den : ℕ} (hnum : 0 < num) (hden : 0 < den) :
    (num : ℚ) / den - pow2 (floorLog2Pos num den - 53) ≤ roundPos num den ∧
    roundPos num den ≤ (num : ℚ) / den + pow2 (floorLog2Pos num den - 53) := by
  have hP : (0 : ℚ) < pow2 (floorLog2Pos num den - 52) := pow2_pos _
  have hPP : pow2 (52 - floorLog2Pos num den) * pow2 (floorLog2Pos num den - 52) = 1 := by
    rw [← pow2_add, show (52 - floorLog2Pos num den) + (floorLog2Pos num den - 52) = 0 by ring,
      pow2_zero]
  have hhalf : 1 / 2 * pow2 (floorLog2Pos num den - 52) =
      pow2 (floorLog2Pos num den - 53) := by
    rw [show (floorLog2Pos num den - 53 : ℤ) =
      (-1) + (floorLog2Pos num den - 52) by ring, pow2_add]
    have : pow2 (-1 : ℤ) = 1 / 2 := by
      rw [pow2]
      norm_num
    rw [this]
  by_cases hs : 0 ≤ 52 - floorLog2Pos num den
  · have hme := @roundPosME_eq_pos num den hs
    have hbr := @rneNat_bracket (num * 2 ^ (52 - floorLog2Pos num den).toNat)
      den hden
    rw [scaled_val_pos hs] at hbr
    rw [roundPos, hme]
    obtain ⟨hb1, hb2⟩ := hbr
    constructor
    · have := mul_le_mul_of_nonneg_right hb1 hP.le
      rw [sub_mul, mul_assoc, hPP, mul_one] at this
      rw [hhalf] at this
      linarith
    · have := mul_le_mul_of_nonneg_right hb2 hP.le
      rw [add_mul, mul_assoc, hPP, mul_one] at this
      rw [hhalf] at this
      linarith
  · have hme := @roundPosME_eq_neg num den hs
    have hpow : 0 < 2 ^ (-(52 - floorLog2Pos num den)).toNat := by positivity
    have hbr := @rneNat_bracket num
      (den * 2 ^ (-(52 - floorLog2Pos num den)).toNat) (Nat.mul_pos hden hpow)
    rw [scaled_val_neg hs] at hbr
    rw [roundPos, hme]
    obtain ⟨hb1, hb2⟩ := hbr
    constructor
    · have := mul_le_mul_of_nonneg_right hb1 hP.le
      rw [sub_mul, mul_assoc, hPP, mul_one] at this
      rw [hhalf] at this
      linarith
    · have := mul_le_mul_of_nonneg_right hb2 hP.le
      rw [add_mul, mul_assoc, hPP, mul_one] at this
      rw [hhalf] at this
      linarith

theorem roundPos_pos {num den : ℕ} (hnum : 0 < num) (hden : 0 < den) :
    0 < roundPos num den := by
  obtain ⟨hb1, _⟩ := roundPos_bracket hnum hden
  obtain ⟨hs1, _⟩ := floorLog2Pos_spec hnum hden
  have h53 : pow2 (floorLog2Pos num den - 53) < pow2 (floorLog2Pos num den) :=
    pow2_strict_mono (by omega)
  linarith

theorem roundDouble_zero : roundDouble 0 = 0 := by
  rw [roundDouble, if_pos rfl]

/-- Binary64 rounding has relative error at most `2 ^ (-52)` on positives. -/
theorem roundDouble_bounds {q : ℚ} (hq : 0 < q) :
    q - q * pow2 (-52) ≤ roundDouble q ∧ roundDouble q ≤ q + q * pow2 (-52) := by
  have hnum : 0 < q.num := Rat.num_pos.mpr hq
  have hnumt : 0 < q.num.toNat := by omega
  have hden : 0 < q.den := q.pos
  have hval : ((q.num.toNat : ℕ) : ℚ) / q.den = q := by
    rw [show ((q.num.toNat : ℕ) : ℚ) = ((q.num : ℤ) : ℚ) by
      exact_mod_cast congrArg (fun z : ℤ => (z : ℚ)) (Int.toNat_of_nonneg hnum.le)]
    exact Rat.num_div_den q
  rw [roundDouble, if_neg (ne_of_gt hq), if_pos hq]
  have hbr := roundPos_bracket hnumt hden
  rw [hval] at hbr
  obtain ⟨hsp, _⟩ := floorLog2Pos_spec hnumt hden
  rw [hval] at hsp
  have h1 : pow2 (floorLog2Pos q.num.toNat q.den - 53) ≤ q * pow2 (-52) := by
    have e1 : pow2 (floorLog2Pos q.num.toNat q.den - 53) =
        pow2 (floorLog2Pos q.num.toNat q.den) * pow2 (-53) := by
      rw [← pow2_add]
      ring_nf
    have e2 : pow2 (-53 : ℤ) ≤ pow2 (-52 : ℤ) := pow2_mono (by norm_num)
    calc pow2 (floorLog2Pos q.num.toNat q.den - 53)
        = pow2 (floorLog2Pos q.num.toNat q.den) * pow2 (-53) := e1
      _ ≤ q * pow2 (-53) := mul_le_mul_of_nonneg_right hsp (pow2_pos _).le
      _ ≤ q * pow2 (-52) := mul_le_mul_of_nonneg_left e2 hq.le
  exact ⟨by linarith [hbr.1], by linarith [hbr.2]⟩

theorem roundDouble_nonneg {q : ℚ} (hq : 0 ≤ q) : 0 ≤ roundDouble q := by
  rcases eq_or_lt_of_le hq with h | h
  · rw [← h, roundDouble_zero]
  · obtain ⟨h1, _⟩ := roundDouble_bounds h
    have hε : pow2 (-52 : ℤ) ≤ 1 := by
      rw [← pow2_zero]
      exact pow2_mono (by norm_num)
    have : q * pow2 (-52) ≤ q * 1 := mul_le_mul_of_nonneg_left hε h.le
    linarith

theorem roundPosME_fst_pos {num den : ℕ} (hnum : 0 < num) (hden : 0 < den) :
    0 < (roundPosME num den).1 := by
  have h := roundPos_pos hnum hden
  rw [roundPos] at h
  by_contra hz
  push_neg at hz
  have hz0 : (roundPosME num den).1 = 0 := by omega
  rw [hz0] at h
  simp at h

/-- `roundDouble` of a positive fraction, in mantissa/exponent form. -/
theorem roundDouble_eq_me (a b : ℕ) (ha : 0 < a) (hb : 0 < b) :
    roundDouble ((a : ℚ) / b) =
      ((roundPosME a b).1 : ℚ) * pow2 ((roundPosME a b).2 - 52) := by
  have hq : (0 : ℚ) < (a : ℚ) / b := by positivity
  rw [roundDouble, if_neg (ne_of_gt hq), if_pos hq]
  have hnum : 0 < ((a : ℚ) / b).num := Rat.num_pos.mpr hq
  have hnumt : 0 < ((a : ℚ) / b).num.toNat := by omega
  have hden : 0 < ((a : ℚ) / b).den := ((a : ℚ) / b).pos
  have hval : ((((a : ℚ) / b).num.toNat : ℕ) : ℚ) / ((a : ℚ) / b).den = (a : ℚ) / b := by
    rw [show ((((a : ℚ) / b).num.toNat : ℕ) : ℚ) = ((((a : ℚ) / b).num : ℤ) : ℚ) by
      exact_mod_cast congrArg (fun z : ℤ => (z : ℚ)) (Int.toNat_of_nonneg hnum.le)]
    exact Rat.num_div_den _
  rw [roundPos, roundPosME_congr hnumt hden ha hb hval]

theorem jsMathRound_zero : jsMathRound 0 = 0 := by
  rw [jsMathRound]
  rw [show ((0 : ℚ) + 1 / 2) = 1 / 2 by ring]
  rw [Int.floor_eq_iff]
  norm_num

theorem jsMathRound_natCast (M : ℕ) : jsMathRound ((M : ℕ) : ℚ) = (M : ℤ) := by
  rw [jsMathRound, Int.floor_eq_iff]
  push_cast
  constructor <;> linarith

/-- `Math.round` of a non-negative fraction, as integer division. -/
theorem floor_add_half_div (M B : ℕ) (hB : 0 < B) :
    ⌊(M : ℚ) / B + 1 / 2⌋ = ((2 * M + B : ℕ) : ℤ) / ((2 * B : ℕ) : ℤ) := by
  have hBq : (0 : ℚ) < (B : ℚ) := by exact_mod_cast hB
  have hval : (M : ℚ) / B + 1 / 2 =
      ((((2 * M + B : ℕ) : ℤ) : ℚ)) / (((2 * B : ℕ) : ℕ) : ℚ) := by
    push_cast
    field_simp
    ring
  rw [hval, Rat.floor_intCast_div_natCast]

/-- The binary64 pipeline `Math.round((cd / days) * 100)` agrees with its
integer-only evaluation form `rateNat`, for every `cd` and `days > 0`. -/
theorem jsRate_eq_rateNat (cd days : ℕ) (hdays : 0 < days) :
    jsMathRound (jsMul (jsDiv (cd : ℚ) (days : ℚ)) 100) = rateNat cd days := by
  by_cases hcd : cd = 0
  · subst hcd
    have h1 : jsDiv ((0 : ℕ) : ℚ) (days : ℚ) = 0 := by
      rw [jsDiv, Nat.cast_zero, zero_div, roundDouble_zero]
    have h2 : jsMul (0 : ℚ) 100 = 0 := by
      rw [jsMul, zero_mul, roundDouble_zero]
    rw [h1, h2, jsMathRound_zero, rateNat, if_pos rfl]
  · have hcd' : 0 < cd := Nat.pos_of_ne_zero hcd
    have hu : jsDiv (cd : ℚ) (days : ℚ) =
        ((roundPosME cd days).1 : ℚ) * pow2 ((roundPosME cd days).2 - 52) := by
      rw [jsDiv]
      exact roundDouble_eq_me cd days hcd' hdays
    have hm1pos : 0 < (roundPosME cd days).1 := roundPosME_fst_pos hcd' hdays
    set a : ℕ := if 0 ≤ (roundPosME cd days).2 - 52
      then 100 * (roundPosME cd days).1 * 2 ^ ((roundPosME cd days).2 - 52).toNat
      else 100 * (roundPosME cd days).1 with hadef
    set b : ℕ := if 0 ≤ (roundPosME cd days).2 - 52
      then 1 else 2 ^ (52 - (roundPosME cd days).2).toNat with hbdef
    have hapos : 0 < a := by
      rw [hadef]
      split <;> positivity
    have hbpos : 0 < b := by
      rw [hbdef]
      split <;> positivity
    have hvalu : ((roundPosME cd days).1 : ℚ) * pow2 ((roundPosME cd days).2 - 52) * 100 =
        (a : ℚ) / b := by
      by_cases hs : 0 ≤ (roundPosME cd days).2 - 52
      · rw [hadef, hbdef, if_pos hs, if_pos hs, pow2_toNat hs]
        push_cast
        rw [div_one]
        ring
      · have hK : (0 : ℤ) ≤ 52 - (roundPosME cd days).2 := by omega
        have hp : pow2 ((roundPosME cd days).2 - 52) =
            ((2 ^ (52 - (roundPosME cd days).2).toNat : ℕ) : ℚ)⁻¹ := by
          rw [show ((roundPosME cd days).2 - 52 : ℤ) =
            -(52 - (roundPosME cd days).2) by ring, pow2_neg, pow2_toNat hK]
        rw [hadef, hbdef, if_neg hs, if_neg hs, hp]
        push_cast
        rw [eq_div_iff (by positivity)]
        field_simp
        ring
    have hv : jsMul (jsDiv (cd : ℚ) (days : ℚ)) 100 =
        ((roundPosME a b).1 : ℚ) * pow2 ((roundPosME a b).2 - 52) := by
      rw [jsMul, hu, hvalu]
      exact roundDouble_eq_me a b hapos hbpos
    have hrate : rateNat cd days =
        (if 0 ≤ (roundPosME a b).2 - 52
         then (((roundPosME a b).1 * 2 ^ ((roundPosME a b).2 - 52).toNat : ℕ) : ℤ)
         else ((2 * (roundPosME a b).1 + 2 ^ (52 - (roundPosME a b).2).toNat : ℕ) : ℤ) /
              ((2 * 2 ^ (52 - (roundPosME a b).2).toNat : ℕ) : ℤ)) := by
      rw [rateNat, if_neg hcd]
    rw [hv, hrate]
    by_cases hs2 : 0 ≤ (roundPosME a b).2 - 52
    · rw [if_pos hs2]
      have hint : ((roundPosME a b).1 : ℚ) * pow2 ((roundPosME a b).2 - 52) =
          (((roundPosME a b).1 * 2 ^ ((roundPosME a b).2 - 52).toNat : ℕ) : ℚ) := by
        rw [pow2_toNat hs2]
        push_cast
        ring
      rw [hint, jsMathRound_natCast]
    · rw [if_neg hs2]
      have hK : (0 : ℤ) ≤ 52 - (roundPosME a b).2 := by omega
      have hfrac : ((roundPosME a b).1 : ℚ) * pow2 ((roundPosME a b).2 - 52) =
          ((roundPosME a b).1 : ℚ) / ((2 ^ (52 - (roundPosME a b).2).toNat : ℕ) : ℚ) := by
        rw [show ((roundPosME a b).2 - 52 : ℤ) =
          -(52 - (roundPosME a b).2) by ring, pow2_neg, pow2_toNat hK, div_eq_mul_inv]
      rw [jsMathRound, hfrac, floor_add_half_div _ _ (by positivity)]

/-- C6 counterexample. With 23 completed days in the 40-day window ending
day `0`, the program computes `(23 / 40) * 100` in binary64, obtaining a
double slightly below `57.5` (the exact value is not representable), and
`Math.round` returns `57`; the claim's formula `round(100 * 23 / 40)`
gives `58`. So `completionRate` does not equal the exact round-half-up
for every window size. -/
theorem completionRate_binary64_half_tie :
    HabitManager.calculateCompletionRate
        [("a", (List.range 23).map (fun i => { date := -(i : ℤ), timestamp := 0 }))]
        "a" 40 0 = 57 ∧
    ⌊100 * ((((StorageManager.getHabitCompletions
        [("a", (List.range 23).map (fun i => { date := -(i : ℤ), timestamp := 0 }))]
        "a" 40 0).filter (fun x => x.completed)).length : ℕ) : ℚ) / ((40 : ℕ) : ℚ) +
      1 / 2⌋ = 58 := by
  have hcount : (((StorageManager.getHabitCompletions
      [("a", (List.range 23).map (fun i => { date := -(i : ℤ), timestamp := 0 }))]
      "a" 40 0).filter (fun x => x.completed)).length) = 23 := by decide
  constructor
  · simp only [HabitManager.calculateCompletionRate]
    rw [hcount, jsRate_eq_rateNat 23 40 (by norm_num)]
    decide
  · rw [hcount]
    rw [show (100 : ℚ) * ((23 : ℕ) : ℚ) / ((40 : ℕ) : ℚ) =
      (((100 * 23 : ℕ) : ℕ) : ℚ) / ((40 : ℕ) : ℚ) by push_cast; ring]
    rw [floor_add_half_div (100 * 23) 40 (by norm_num)]
    decide

/-- C6 (amended): `calculateCompletionRate` applies `Math.round` to the
binary64 computation `(completedDaysInWindow / days) * 100`. For every
window size `days > 0` the result is an integer with
`0 ≤ rate ≤ 100`; and for the window sizes this application passes to it
(7 and 30, habits.js lines 144-145), it coincides with the exact
round-half-up `round(100 * completedDaysInWindow / days)`. (For other
window sizes the two can differ by one at half-tie artifacts — see
`completionRate_binary64_half_tie`.) -/
theorem completionRate_bounds_and_app_windows (c : Completions) (hid : String)
    (days : Nat) (today : Int) (hd : 0 < days) :
    (0 ≤ HabitManager.calculateCompletionRate c hid days today ∧
     HabitManager.calculateCompletionRate c hid days today ≤ 100) ∧
    ((days = 7 ∨ days = 30) →
      HabitManager.calculateCompletionRate c hid days today =
        ⌊100 * ((((StorageManager.getHabitCompletions c hid days today).filter
            (fun x => x.completed)).length : ℕ) : ℚ) / (days : ℚ) + 1 / 2⌋) := by
  have hlen : (StorageManager.getHabitCompletions c hid days today).length = days := by
    simp [StorageManager.getHabitCompletions]
  have hcdle : ((StorageManager.getHabitCompletions c hid days today).filter
      (fun x => x.completed)).length ≤ days := by
    have h1 := List.length_filter_le (fun x : DayCompletion => x.completed)
      (StorageManager.getHabitCompletions c hid days today)
    omega
  have hεsmall : pow2 (-52 : ℤ) ≤ 1 / 1000000 := by
    rw [show (-52 : ℤ) = -(52 : ℤ) by norm_num, pow2_neg,
      pow2_toNat (by norm_num : (0:ℤ) ≤ 52)]
    rw [inv_eq_one_div, div_le_div_iff₀ (by positivity) (by norm_num)]
    norm_num
    decide
  have hεpos : (0 : ℚ) < pow2 (-52 : ℤ) := pow2_pos _
  constructor
  · simp only [HabitManager.calculateCompletionRate]
    have h0le : (0 : ℚ) ≤ jsDiv ((((StorageManager.getHabitCompletions c hid days
        today).filter (fun x => x.completed)).length : ℕ) : ℚ) ((days : ℕ) : ℚ) := by
      rw [jsDiv]
      exact roundDouble_nonneg (by positivity)
    have huub : jsDiv ((((StorageManager.getHabitCompletions c hid days
        today).filter (fun x => x.completed)).length : ℕ) : ℚ) ((days : ℕ) : ℚ) ≤
        1 + pow2 (-52 : ℤ) := by
      by_cases hc0 : (((StorageManager.getHabitCompletions c hid days
          today).filter (fun x => x.completed)).length) = 0
      · rw [jsDiv, hc0, Nat.cast_zero, zero_div, roundDouble_zero]
        linarith
      · have hcpos : 0 < (((StorageManager.getHabitCompletions c hid days
            today).filter (fun x => x.completed)).length) := Nat.pos_of_ne_zero hc0
        have hq : (0 : ℚ) < ((((StorageManager.getHabitCompletions c hid days
            today).filter (fun x => x.completed)).length : ℕ) : ℚ) / ((days : ℕ) : ℚ) := by
          have hc : (0:ℚ) < ((((StorageManager.getHabitCompletions c hid days
              today).filter (fun x => x.completed)).length : ℕ) : ℚ) := by
            exact_mod_cast hcpos
          have hdq : (0:ℚ) < ((days : ℕ) : ℚ) := by exact_mod_cast hd
          positivity
        have hq1 : ((((StorageManager.getHabitCompletions c hid days
            today).filter (fun x => x.completed)).length : ℕ) : ℚ) / ((days : ℕ) : ℚ) ≤ 1 :=
          div_le_one_of_le₀ (by exact_mod_cast hcdle) (by positivity)
        obtain ⟨_, hub⟩ := roundDouble_bounds hq
        rw [jsDiv]
        have hmul : ((((StorageManager.getHabitCompletions c hid days
            today).filter (fun x => x.completed)).length : ℕ) : ℚ) / ((days : ℕ) : ℚ) *
            pow2 (-52 : ℤ) ≤ 1 * pow2 (-52 : ℤ) :=
          mul_le_mul_of_nonneg_right hq1 hεpos.le
        linarith
    have hv0 : (0 : ℚ) ≤ jsMul (jsDiv ((((StorageManager.getHabitCompletions c hid days
        today).filter (fun x => x.completed)).length : ℕ) : ℚ) ((days : ℕ) : ℚ)) 100 := by
      rw [jsMul]
      exact roundDouble_nonneg (by positivity)
    have hvle : jsMul (jsDiv ((((StorageManager.getHabitCompletions c hid days
        today).filter (fun x => x.completed)).length : ℕ) : ℚ) ((days : ℕ) : ℚ)) 100 ≤
        (1 + pow2 (-52 : ℤ)) * 100 * (1 + pow2 (-52 : ℤ)) := by
      rcases eq_or_lt_of_le h0le with hu0 | hupos
      · rw [jsMul, ← hu0, zero_mul, roundDouble_zero]
        nlinarith
      · rw [jsMul]
        obtain ⟨_, hub⟩ := @roundDouble_bounds (jsDiv ((((StorageManager.getHabitCompletions
            c hid days today).filter (fun x => x.completed)).length : ℕ) : ℚ)
            ((days : ℕ) : ℚ) * 100) (by positivity)
        nlinarith [huub, hupos, hεpos]
    constructor
    · rw [jsMathRound]
      exact Int.le_floor.mpr (by push_cast; linarith)
    · rw [jsMathRound, Int.floor_le_iff]
      push_cast
      nlinarith [hεsmall, hεpos]
  · intro hdays
    simp only [HabitManager.calculateCompletionRate]
    rw [jsRate_eq_rateNat _ _ hd]
    rw [show (100 : ℚ) * ((((StorageManager.getHabitCompletions c hid days
        today).filter (fun x => x.completed)).length : ℕ) : ℚ) / ((days : ℕ) : ℚ) =
        (((100 * ((StorageManager.getHabitCompletions c hid days today).filter
          (fun x => x.completed)).length : ℕ) : ℕ) : ℚ) / ((days : ℕ) : ℚ) by
      push_cast; ring]
    rw [floor_add_half_div _ _ hd]
    rcases hdays with rfl | rfl
    · generalize hg : ((StorageManager.getHabitCompletions c hid 7
        today).filter (fun x => x.completed)).length = cd at hcdle ⊢
      interval_cases cd <;> decide
    · generalize hg : ((StorageManager.getHabitCompletions c hid 30
        today).filter (fun x => x.completed)).length = cd at hcdle ⊢
      interval_cases cd <;> decide

/-- Witness for `completionRate_bounds_and_app_windows`: habit `"a"`
completed on day `0`, 7-day window ending day `0`. -/
theorem completionRate_bounds_and_app_windows_witness :
    0 < 7 ∧
    ((0 ≤ HabitManager.calculateCompletionRate [("a", [⟨0, 0⟩])] "a" 7 0 ∧
     HabitManager.calculateCompletionRate [("a", [⟨0, 0⟩])] "a" 7 0 ≤ 100) ∧
    ((7 = 7 ∨ 7 = 30) →
      HabitManager.calculateCompletionRate [("a", [⟨0, 0⟩])] "a" 7 0 =
        ⌊100 * ((((StorageManager.getHabitCompletions [("a", [⟨0, 0⟩])] "a" 7 0).filter
            (fun x => x.completed)).length : ℕ) : ℚ) / ((7 : ℕ) : ℚ) + 1 / 2⌋)) :=
  ⟨by decide, completionRate_bounds_and_app_windows [("a", [⟨0, 0⟩])] "a" 7 0 (by decide)⟩
